import Mathlib

/-!
Verification development for the InDesign Word/RTF import automation
scripts.  The pipeline under study places a word-processor file into a
story, grows the page/frame chain until nothing overflows, collapses
runs of paragraph returns, trims and prunes paragraphs, remaps
paragraph styles (headings/body), classifies bullet paragraphs, and
styles tables and hyperlinks.

Paragraph contents are modelled as `List Char` (the InDesign paragraph
return `\r` is the separator at the story-text level and never occurs
inside a paragraph's modelled contents).  Style registry lookups that
can miss (`getStyle` / `itemByName` under try/catch) are modelled as
`Option (List Char)` holding the style name.
-/

/-- Whitespace characters as matched by the scripts' JavaScript regex
class `\s` (space, tab, CR, LF, vertical tab, form feed, NBSP, BOM). -/
def isWS (c : Char) : Bool :=
  c == ' ' || c == '\t' || c == '\r' || c == '\n' || c == '\u000B' ||
  c == '\u000C' || c == ' ' || c == '﻿'

/-- Case-insensitive lowering of a character list (JS regex flag `i`). -/
def lowerL (l : List Char) : List Char := l.map Char.toLower

/-- Does the candidate `pat` occur at the head of `s`?  (Plain list
matching used to model anchored JS regex tests.) -/
def leadsWith : List Char → List Char → Bool
  | [], _ => true
  | _ :: _, [] => false
  | a :: pa, b :: sb => a == b && leadsWith pa sb

/-- Does `pat` occur as a contiguous substring of `s`?  Models an
unanchored JS `RegExp.test` with a literal pattern. -/
def containsSub : List Char → List Char → Bool
  | pat, [] => pat.isEmpty
  | pat, c :: rest => leadsWith pat (c :: rest) || containsSub pat rest

/-- Case-insensitive substring test: models `/pat/i.test(s)` for a
literal pattern `pat` (given already in lower case). -/
def containsCI (pat s : List Char) : Bool :=
  containsSub pat (lowerL s)

/-- Case-insensitive anchored head test: models `/^pat/i.test(s)`. -/
def startsWithCI (pat s : List Char) : Bool :=
  leadsWith pat (lowerL s)

/-! ## Content sanitizer: collapse of paragraph returns

The scripts run `story.changeGrep` with `findWhat = "(\r){3,}"` and
`changeTo = "\r\r"`: every maximal run of three or more paragraph
returns in the story text is replaced by exactly two returns. -/

/-- Pending run of `k` carriage returns, rendered as the GREP change
would leave it: runs of length `≥ 3` become exactly two returns. -/
def emitCR (k : Nat) : List Char :=
  if 3 ≤ k then ['\r', '\r'] else List.replicate k '\r'

/-- Worker for `collapseReturns`: `k` counts the carriage returns read
so far in the current run. -/
def collapseGo : Nat → List Char → List Char
  | k, [] => emitCR k
  | k, c :: rest =>
    if c = '\r' then collapseGo (k + 1) rest
    else emitCR k ++ c :: collapseGo 0 rest

/-- The whole-story GREP replacement `(\r){3,} → \r\r` of the cleanup
step, acting on the story text. -/
def collapseReturns (t : List Char) : List Char := collapseGo 0 t

/-- Worker for `crRuns`. -/
def crRunsGo : Nat → List Char → List Nat
  | k, [] => if k = 0 then [] else [k]
  | k, c :: rest =>
    if c = '\r' then crRunsGo (k + 1) rest
    else (if k = 0 then [] else [k]) ++ crRunsGo 0 rest

/-- The lengths of the maximal carriage-return runs of a story text,
in order of appearance (observer used to state what the collapse pass
does to each run of paragraph breaks). -/
def crRuns (t : List Char) : List Nat := crRunsGo 0 t

/-! ## Story text versus paragraph list -/

/-- Split a story text at every paragraph return; `k` separators yield
`k + 1` chunks. -/
def splitCR : List Char → List (List Char)
  | [] => [[]]
  | c :: rest =>
    if c = '\r' then [] :: splitCR rest
    else
      match splitCR rest with
      | [] => [[c]]
      | q :: qs => (c :: q) :: qs

/-- The paragraphs of a story text: chunks between returns, except
that a trailing return terminates the last paragraph rather than
opening an empty one, and an empty story has no paragraphs. -/
def paragraphsOf (t : List Char) : List (List Char) :=
  match t.getLast? with
  | none => []
  | some c => if c = '\r' then (splitCR t).dropLast else splitCR t

/-- The story text displayed by a paragraph list: contents joined by
single paragraph returns. -/
def storyText : List (List Char) → List Char
  | [] => []
  | [p] => p
  | p :: ps => p ++ '\r' :: storyText ps

/-! ## Content sanitizer: trim and prune

The scripts iterate over `story.paragraphs` with an index `i`,
trimming each paragraph's leading/trailing whitespace
(`replace(/^\s+|\s+$/g, "")`), removing the paragraph when what
remains is whitespace-only (`replace(/\s/g, "") === ""`), and
compensating the removal with `i--`. -/

/-- Leading/trailing whitespace removal:
`contents.replace(/^\s+|\s+$/g, "")`. -/
def trimWS (l : List Char) : List Char :=
  (((l.dropWhile isWS).reverse).dropWhile isWS).reverse

/-- Whitespace-only test: `contents.replace(/\s/g, "") === ""`. -/
def isBlankL (l : List Char) : Bool := l.all isWS

/-- The trim-and-prune loop, modelled exactly as the indexed source
loop: at index `i`, write back the trimmed contents; if the result is
whitespace-only, remove the paragraph and retry the same index
(`p.remove(); i--`), otherwise advance. -/
def pruneGo (i : Nat) (l : List (List Char)) : List (List Char) :=
  if h : i < l.length then
    if isBlankL (trimWS (l.get ⟨i, h⟩)) then
      pruneGo i ((l.set i (trimWS (l.get ⟨i, h⟩))).eraseIdx i)
    else pruneGo (i + 1) (l.set i (trimWS (l.get ⟨i, h⟩)))
  else l
termination_by l.length - i
decreasing_by
  · simp only [List.length_eraseIdx, List.length_set, if_pos h]
    omega
  · simp only [List.length_set]
    omega

/-- Trim each paragraph and delete the ones that are empty after
trimming (steps "Trim and remove empties" of the scripts). -/
def trimPrune (l : List (List Char)) : List (List Char) := pruneGo 0 l

/-- The full sanitizer stage at the paragraph level: collapse runs of
returns in the story text, then trim and prune the paragraphs. -/
def sanitizeParas (t : List Char) : List (List Char) :=
  trimPrune (paragraphsOf (collapseReturns t))

/-- The full sanitizer stage at the story-text level. -/
def sanitizeStory (t : List Char) : List Char :=
  storyText (sanitizeParas t)

/-! ## Pagination flow controller

`while (story.overflows) { add page after last; create frame inside
the new page's margins; link it as the chain's next frame }`.

The host document model is external to the scripts; per the spec's
glossary, the overflow flag is true exactly while the story holds more
content than its container chain can display, and a frame created
inside a page's margins has the page's margin-derived usable area.
Those two host facts are the only modelled host behaviour; the loop
itself is translated from the source. -/

/-- Page geometry and margin preferences shared by the pages the loop
adds (`page.bounds` with `page.marginPreferences`). -/
structure Geom where
  height : Nat
  width : Nat
  top : Nat
  bottom : Nat
  left : Nat
  right : Nat
deriving DecidableEq, Repr

/-- Modelled from the spec: the usable area of a frame created inside
a page's margins (`createFrameInsideMargins`); zero when the margins
meet or exceed the page size (the spec's zero-usable-area failure
mode).  Natural subtraction truncates at zero. -/
def frameCap (g : Geom) : Nat :=
  (g.height - (g.top + g.bottom)) * (g.width - (g.left + g.right))

/-- A text frame of the story's container chain: the page it sits on
(position in the document's page order) and its content capacity. -/
structure Frame where
  page : Nat
  cap : Nat
deriving DecidableEq, Repr

/-- The document state seen by the pagination loop: the shared page
geometry, the number of pages, the story's container chain, and the
story's content amount. -/
structure Doc where
  geom : Geom
  pages : Nat
  chain : List Frame
  content : Nat
deriving DecidableEq, Repr

/-- Modelled from the spec: `story.overflows` — true while the story
holds more content than its current container chain can display. -/
def overflows (d : Doc) : Bool :=
  decide ((d.chain.map Frame.cap).sum < d.content)

/-- One iteration of the pagination loop body: append a page after the
current last page and link a margin-derived frame on it at the end of
the chain. -/
def stepPaginate (d : Doc) : Doc :=
  { d with
    pages := d.pages + 1
    chain := d.chain ++ [⟨d.pages, frameCap d.geom⟩] }

/-- The fuel-indexed pagination loop: with fuel left, run one body
iteration while the story overflows; `none` means the fuel was
exhausted with the story still overflowing (the source loop has no
iteration or page cap of its own). -/
def paginate : Nat → Doc → Option Doc
  | 0, d => if overflows d then none else some d
  | n + 1, d => if overflows d then paginate n (stepPaginate d) else some d

/-- Every frame of the chain sits on an existing page. -/
def chainOnPages (d : Doc) : Prop :=
  ∀ f ∈ d.chain, f.page < d.pages

/-- Each frame of the chain sits on a page strictly after the page of
the frame it follows. -/
def chainOrdered (d : Doc) : Prop :=
  List.Chain' (fun a b => a.page < b.page) d.chain

/-- The pagination loop diverges from `d`: no amount of fuel makes the
`while (story.overflows)` loop reach the exit condition. -/
def paginateNeverStops (d : Doc) : Prop :=
  ∀ n, paginate n d = none

/-! ## Style registry and Pass A (heading/body mapping)

`getStyle(doc, name)` probes `paragraphStyles.itemByName` under
try/catch and yields the style or `null`; the gathered `styles` object
holds one optional style per role.  Styles are identified by name. -/

/-- The style registry lookups gathered by the scripts (step "Gather
styles"); each field is the result of a `getStyle` probe. -/
structure Styles where
  body : Option (List Char) := none
  h1 : Option (List Char) := none
  h2 : Option (List Char) := none
  h3 : Option (List Char) := none
  h4 : Option (List Char) := none
  h5 : Option (List Char) := none
  h6 : Option (List Char) := none
  bullet : Option (List Char) := none
  subBullet : Option (List Char) := none
  table : Option (List Char) := none
deriving DecidableEq, Repr

/-- The heading target style for level `k` (1 to 6). -/
def hStyle (st : Styles) : Nat → Option (List Char)
  | 1 => st.h1
  | 2 => st.h2
  | 3 => st.h3
  | 4 => st.h4
  | 5 => st.h5
  | 6 => st.h6
  | _ => none

/-- The lowered literal pattern of the `/Heading k/i` test. -/
def hPat : Nat → List Char
  | 1 => ('h' :: 'e' :: 'a' :: 'd' :: 'i' :: 'n' :: 'g' :: ' ' :: ['1'])
  | 2 => ('h' :: 'e' :: 'a' :: 'd' :: 'i' :: 'n' :: 'g' :: ' ' :: ['2'])
  | 3 => ('h' :: 'e' :: 'a' :: 'd' :: 'i' :: 'n' :: 'g' :: ' ' :: ['3'])
  | 4 => ('h' :: 'e' :: 'a' :: 'd' :: 'i' :: 'n' :: 'g' :: ' ' :: ['4'])
  | 5 => ('h' :: 'e' :: 'a' :: 'd' :: 'i' :: 'n' :: 'g' :: ' ' :: ['5'])
  | 6 => ('h' :: 'e' :: 'a' :: 'd' :: 'i' :: 'n' :: 'g' :: ' ' :: ['6'])
  | _ => ['\u0000']

/-- `/Heading k/i.test(srcName)`. -/
def matchesH (k : Nat) (srcName : List Char) : Bool :=
  containsCI (hPat k) srcName

/-- `/Normal/i.test(srcName)`. -/
def matchesNormal (srcName : List Char) : Bool :=
  containsCI ('n' :: 'o' :: 'r' :: 'm' :: 'a' :: ['l']) srcName

/-- Pass A, the per-paragraph style-mapping chain of the H1–H6 variant
("Map incoming Word/RTF para styles"): first-match-wins over Normal,
Heading 1 … Heading 6, with a final unconditional body fallback when a
body style is registered.  `some s` means the paragraph is reassigned
to style `s`; `none` means its style is left untouched. -/
def mapParaStyle (st : Styles) (srcName : List Char) : Option (List Char) :=
  if matchesNormal srcName && st.body.isSome then st.body
  else if matchesH 1 srcName && st.h1.isSome then st.h1
  else if matchesH 2 srcName && st.h2.isSome then st.h2
  else if matchesH 3 srcName && st.h3.isSome then st.h3
  else if matchesH 4 srcName && st.h4.isSome then st.h4
  else if matchesH 5 srcName && st.h5.isSome then st.h5
  else if matchesH 6 srcName && st.h6.isSome then st.h6
  else st.body

/-! ## Pass B (bullet/sub-bullet classification)

Three source variants are modelled:
 * `normalizeBullets` — the cross-platform bullet repair with three
   ordered glyph regexes (sub-bullets first, then primary bullets,
   then dash bullets);
 * `normalizeBulletsAndLists`, "tightened detection" — one combined
   glyph class plus left-indent and native-list evidence;
 * `normalizeBulletsAndLists`, "tab-only + style-aware" — the variant
   with the rolling `prevWasBullet` continuation flag. -/

/-- A paragraph as the classifier sees it: contents, the applied
(source) style name, the left-indent metric, and whether the host's
native list type is already `BULLET_LIST`. -/
structure Para where
  contents : List Char
  styleName : List Char
  leftIndent : Int := 0
  listBullet : Bool := false
deriving DecidableEq, Repr

/-- The combined glyph class of `normalizeBulletsAndLists`:
`[•●◦∙·○◦o\-–•]` (duplicates kept as in
the source class). -/
def glyphChars : List Char :=
  ['•', '●', '◦', '', '∙', '·',
   '○', '◦', 'o', '-', '–', '•']

/-- The sub-bullet glyph class `[○◦o]` of `normalizeBullets`. -/
def subChars : List Char := ['○', '◦', 'o']

/-- The primary-bullet glyph class
`[•●◦∙·]` of `normalizeBullets`. -/
def primaryChars : List Char :=
  ['•', '●', '◦', '', '∙', '·']

/-- The dash-bullet glyph class `[\-–]` of `normalizeBullets`. -/
def dashChars : List Char := ['-', '–']

/-- Trailing-whitespace strip `replace(/\s+$/, "")` applied to the
contents before glyph/tab tests in `normalizeBulletsAndLists`. -/
def rstrip (l : List Char) : List Char :=
  ((l.reverse).dropWhile isWS).reverse

/-- `glyphRE.test(txt)` — `/^[class]+\s*\t?/` matches exactly when the
first character belongs to the class. -/
def glyphTest (txt : List Char) : Bool :=
  match txt with
  | c :: _ => glyphChars.contains c
  | [] => false

/-- `txt.replace(glyphRE, "")` — when the regex matches, the greedy
match swallows the maximal leading run of class characters and the
whitespace run after it (`\s*` already covers the optional `\t?`);
otherwise the text is unchanged. -/
def stripGlyph (txt : List Char) : List Char :=
  if glyphTest txt then (txt.dropWhile (fun c => glyphChars.contains c)).dropWhile isWS
  else txt

/-- `/^\t/.test(txt)`. -/
def startsTab (txt : List Char) : Bool :=
  match txt with
  | c :: _ => c == '\t'
  | [] => false

/-- The skip test of the tightened `normalizeBulletsAndLists`:
`/Heading|Table/i.test(srcName)` (unanchored). -/
def skipHT (srcName : List Char) : Bool :=
  containsCI ('h' :: 'e' :: 'a' :: 'd' :: 'i' :: 'n' :: ['g']) srcName ||
  containsCI ('t' :: 'a' :: 'b' :: 'l' :: ['e']) srcName

/-- Per-paragraph body of the tightened `normalizeBulletsAndLists`:
skip headings/tables; otherwise, on native-list, glyph, or positive
left-indent evidence, strip the leading glyph run, apply the bullet
style and set the native list type.  The source assigns
`styles.bullet` directly (the claims exercise it registered); the
model keeps the old name when the lookup missed. -/
def nblPara (st : Styles) (p : Para) : Para :=
  if skipHT p.styleName then p
  else
    if p.listBullet || glyphTest (rstrip p.contents) || decide (0 < p.leftIndent) then
      { p with
        contents := stripGlyph (rstrip p.contents)
        styleName := st.bullet.getD p.styleName
        listBullet := true }
    else p

/-- The tightened `normalizeBulletsAndLists` over a story's
paragraphs. -/
def normalizeBulletsAndLists (st : Styles) (ps : List Para) : List Para :=
  ps.map (nblPara st)

/-- `subBulletGlyphRE.test(txt)` for `/^[○◦o]\s*\t?/`: a single class
character suffices. -/
def subTest (txt : List Char) : Bool :=
  match txt with
  | c :: _ => subChars.contains c
  | [] => false

/-- `primaryBulletRE.test(txt)` for `/^[•●◦∙·]\s*\t?/`. -/
def primTest (txt : List Char) : Bool :=
  match txt with
  | c :: _ => primaryChars.contains c
  | [] => false

/-- `dashBulletRE.test(txt)` for `/^[\-–]\s+\t?/`: a dash followed by
at least one whitespace character. -/
def dashTest (txt : List Char) : Bool :=
  match txt with
  | c :: c2 :: _ => dashChars.contains c && isWS c2
  | _ => false

/-- Strip a single-glyph match `/^[class]\s*\t?/`: the glyph and the
greedy whitespace run after it. -/
def stripOneGlyph (txt : List Char) : List Char :=
  (txt.drop 1).dropWhile isWS

/-- Per-paragraph body of `normalizeBullets`: sub-bullets are tested
first so the open-circle overlap is not captured by the primary class;
then primary bullets, then dash bullets; each branch needs its target
style registered, strips its match, applies the style, and sets the
native list type. -/
def nbPara (st : Styles) (p : Para) : Para :=
  if st.subBullet.isSome && subTest p.contents then
    { p with
      contents := stripOneGlyph p.contents
      styleName := st.subBullet.getD p.styleName
      listBullet := true }
  else if st.bullet.isSome && primTest p.contents then
    { p with
      contents := stripOneGlyph p.contents
      styleName := st.bullet.getD p.styleName
      listBullet := true }
  else if st.bullet.isSome && dashTest p.contents then
    { p with
      contents := stripOneGlyph p.contents
      styleName := st.bullet.getD p.styleName
      listBullet := true }
  else p

/-- The cross-platform `normalizeBullets` over a story's
paragraphs. -/
def normalizeBullets (st : Styles) (ps : List Para) : List Para :=
  ps.map (nbPara st)

/-! ### The tab-aware variant with the rolling continuation flag -/

/-- The skip test of the tab-aware variant:
`/^heading\s*\d+$/i.test(sn) || /^table/i.test(sn)` — an anchored
"heading <digits>" name, or a name starting with "table". -/
def skipNBL2 (srcName : List Char) : Bool :=
  (leadsWith ('h' :: 'e' :: 'a' :: 'd' :: 'i' :: 'n' :: ['g']) (lowerL srcName) &&
    (let r := ((lowerL srcName).drop 7).dropWhile isWS
     !r.isEmpty && r.all Char.isDigit)) ||
  startsWithCI ('t' :: 'a' :: 'b' :: 'l' :: ['e']) srcName

/-- `looksListyStyle`: `/list|bullet/i.test(name)`. -/
def listyStyle (srcName : List Char) : Bool :=
  containsCI ('l' :: 'i' :: 's' :: ['t']) srcName ||
  containsCI ('b' :: 'u' :: 'l' :: 'l' :: 'e' :: ['t']) srcName

/-- The decision of the tab-aware variant, with `prev` the rolling
"previous paragraph was a bullet" flag:
`isTrueList || hasGlyph || (startsWithTab && (styleIsListy || prevWasBullet))`. -/
def shouldBullet (prev : Bool) (p : Para) : Bool :=
  p.listBullet || glyphTest (rstrip p.contents) ||
    (startsTab (rstrip p.contents) && (listyStyle p.styleName || prev))

/-- The bulletizing assignment of the tab-aware variant: strip leading
glyphs then leading tabs from the trailing-stripped text, fall back to
the current style when the bullet style is unregistered
(`styles.bullet || p.appliedParagraphStyle`), set the native list
type. -/
def bulletize2 (st : Styles) (p : Para) : Para :=
  { p with
    contents := (stripGlyph (rstrip p.contents)).dropWhile (fun c => c == '\t')
    styleName := st.bullet.getD p.styleName
    listBullet := true }

/-- One step of the rolling flag: a heading/table boundary resets it
to false; otherwise it records whether the paragraph was classified a
bullet. -/
def stepFlag (prev : Bool) (p : Para) : Bool :=
  if skipNBL2 p.styleName then false else shouldBullet prev p

/-- The tab-aware `normalizeBulletsAndLists` loop from a given flag
state. -/
def nbl2Go (st : Styles) : Bool → List Para → List Para
  | _, [] => []
  | prev, p :: rest =>
    if skipNBL2 p.styleName then p :: nbl2Go st false rest
    else if shouldBullet prev p then bulletize2 st p :: nbl2Go st true rest
    else p :: nbl2Go st false rest

/-- The tab-aware `normalizeBulletsAndLists` over a story's
paragraphs; the continuation flag starts false. -/
def normalizeBulletsLists2 (st : Styles) (ps : List Para) : List Para :=
  nbl2Go st false ps

/-- The flag value the loop holds just before processing index `k`. -/
def flagAt (ps : List Para) (k : Nat) : Bool :=
  (ps.take k).foldl stepFlag false

/-- Whether the loop classifies the paragraph at index `k` as a
bullet (false at skipped paragraphs and out-of-range indices). -/
def classifiedAt (ps : List Para) (k : Nat) : Bool :=
  match ps[k]? with
  | none => false
  | some p => !skipNBL2 p.styleName && shouldBullet (flagAt ps k) p

/-! ## Hyperlink classifier

The script gathers the "Hyperlink Highlight" character style (or
`null`), then for each document hyperlink: skip unless the destination
is a URL destination (`instanceof HyperlinkURLDestination` or an
address matching `/^(https?:|mailto:|ftp:)/i`), and apply the style to
`source.sourceText` only when the source is a `HyperlinkTextSource`
with non-empty text. -/

/-- A hyperlink destination: whether it is an explicit
`HyperlinkURLDestination`, and its `destinationURL` address (empty
when absent, matching the JS falsiness test). -/
structure Dest where
  urlType : Bool
  destinationURL : List Char
deriving DecidableEq, Repr

/-- `/^(https?:|mailto:|ftp:)/i.test(u)`: the address begins with one
of the literal schemes (colon included). -/
def schemeMatch (u : List Char) : Bool :=
  startsWithCI ('h' :: 't' :: 't' :: 'p' :: [':']) u ||
  startsWithCI ('h' :: 't' :: 't' :: 'p' :: 's' :: [':']) u ||
  startsWithCI ('m' :: 'a' :: 'i' :: 'l' :: 't' :: 'o' :: [':']) u ||
  startsWithCI ('f' :: 't' :: 'p' :: [':']) u

/-- `isUrlDest(d)`: a missing destination fails both tests. -/
def isUrlDest (d : Option Dest) : Bool :=
  match d with
  | none => false
  | some dd => dd.urlType || schemeMatch dd.destinationURL

/-- The text range of a `HyperlinkTextSource`: its length and the
character style currently applied to it. -/
structure TextRange where
  len : Nat
  charStyle : Option (List Char) := none
deriving DecidableEq, Repr

/-- A hyperlink source: a text source with its range, or a non-text
anchor. -/
inductive HSource where
  | text : TextRange → HSource
  | nonText : HSource
deriving DecidableEq, Repr

/-- A document hyperlink. -/
structure Hyperlink where
  dest : Option Dest
  source : HSource
deriving DecidableEq, Repr

/-- The per-link body of the hyperlink loop, given the registered
style name `s`: `continue` unless the destination is a URL
destination; then apply the style exactly when the source is a text
source with non-empty text. -/
def styleHyperlink (s : List Char) (l : Hyperlink) : Hyperlink :=
  if isUrlDest l.dest then
    match l.source with
    | HSource.text r =>
      if 0 < r.len then { l with source := HSource.text { r with charStyle := some s } }
      else l
    | HSource.nonText => l
  else l

/-- The hyperlink pass: when the "Hyperlink Highlight" lookup missed,
nothing at all happens; otherwise each link runs the per-link body. -/
def processHyperlinks (hstyle : Option (List Char)) (ls : List Hyperlink) :
    List Hyperlink :=
  match hstyle with
  | none => ls
  | some s => ls.map (styleHyperlink s)

/-- The claim's characterization of when a link's source range gets
the hyperlink style: the style is registered, the destination is a
literal external URL (explicit URL-destination type or a
scheme-leading address), and the source is a non-empty text range. -/
def claimStyled (hstyle : Option (List Char)) (l : Hyperlink) : Bool :=
  hstyle.isSome && isUrlDest l.dest &&
    (match l.source with
     | HSource.text r => decide (0 < r.len)
     | HSource.nonText => false)

/-- Write the style name onto a text source's range; identity on
non-text sources. -/
def setLinkStyle (s : List Char) (l : Hyperlink) : Hyperlink :=
  match l.source with
  | HSource.text r => { l with source := HSource.text { r with charStyle := some s } }
  | HSource.nonText => l

/-! ## Concrete instances used in witnesses and counterexamples -/

/-- Geometry with usable frame area 10 (12 minus 1+1 margins, width 1). -/
def exGeom : Geom :=
  { height := 12, width := 1, top := 1, bottom := 1, left := 0, right := 0 }

/-- A document whose story needs exactly three container-fulls. -/
def exDoc0 : Doc :=
  { geom := exGeom, pages := 1, chain := [{ page := 0, cap := 10 }], content := 30 }

/-- The paginated result of `exDoc0`: two pages added beyond the
first, chained in content order. -/
def exDoc1 : Doc :=
  { geom := exGeom, pages := 3,
    chain := [{ page := 0, cap := 10 }, { page := 1, cap := 10 }, { page := 2, cap := 10 }],
    content := 30 }

/-- Margins meet the page size: zero usable area. -/
def exBadGeom : Geom :=
  { height := 2, width := 2, top := 1, bottom := 1, left := 1, right := 1 }

/-- An overflowing document whose margin-derived frames can hold
nothing (the spec's zero-usable-area failure mode). -/
def exBadDoc : Doc :=
  { geom := exBadGeom, pages := 1, chain := [{ page := 0, cap := 0 }], content := 1 }

/-- Story text with a run of three consecutive blank paragraphs
between two text paragraphs ("a", blank, blank, blank, "b"). -/
def exRunText : List Char :=
  'a' :: '\r' :: '\r' :: '\r' :: '\r' :: ['b']

/-- A registry where "Heading 2" is unregistered while "Body" and some
other heading targets are registered. -/
def exStyles3 : Styles :=
  { body := some (("Body").toList), h1 := some (("Heading 1").toList),
    h3 := some (("Heading 3").toList) }

/-- A registry with both bullet styles registered. -/
def exStylesB : Styles :=
  { bullet := some (("Bullets").toList), subBullet := some (("Sub-Bullets").toList) }

/-- A paragraph leading with the open-circle sub-bullet glyph. -/
def exParaSub : Para :=
  { contents := (("○ Sub item").toList), styleName := (("Body").toList) }

/-- The spec's bullet test paragraph. -/
def exParaItem : Para :=
  { contents := (("• Item one").toList), styleName := (("Normal").toList) }

/-- An ordinary body paragraph that merely begins with the letter o. -/
def exParaOnce : Para :=
  { contents := (("once upon a time").toList), styleName := (("Body").toList) }

/-- A heading paragraph, a tab-led listy paragraph, and a tab-led body
paragraph, for the continuation-flag witness. -/
def exPs8 : List Para :=
  [ { contents := (("Intro").toList), styleName := (("Heading 2").toList) },
    { contents := ('\t' :: ("alpha").toList), styleName := (("List Paragraph").toList) },
    { contents := ('\t' :: ("beta").toList), styleName := (("Body").toList) } ]

/-! ## Lemmas: trim and prune -/

theorem take_set_self (l : List (List Char)) (i : Nat) (x : List Char) :
    (l.set i x).take i = l.take i := by
  rcases Nat.lt_or_ge i l.length with h | h
  · rw [List.set_eq_take_cons_drop x h, List.take_append_eq_append_take]
    have h1 : (l.take i).length = i := List.length_take_of_le h.le
    rw [h1, List.take_take, Nat.sub_self]
    simp [Nat.min_self]
  · rw [List.set_eq_of_length_le h]

theorem drop_succ_set (l : List (List Char)) (i : Nat) (x : List Char) :
    (l.set i x).drop (i + 1) = l.drop (i + 1) := by
  rw [List.drop_set]
  simp

theorem take_succ_set (l : List (List Char)) (i : Nat) (x : List Char)
    (h : i < l.length) : (l.set i x).take (i + 1) = l.take i ++ [x] := by
  rw [List.set_eq_take_cons_drop x h, List.take_append_eq_append_take]
  have h1 : (l.take i).length = i := List.length_take_of_le h.le
  rw [List.take_take, h1]
  have h2 : i + 1 - i = 1 := by omega
  have h3 : min (i + 1) i = i := by omega
  rw [h2, h3]
  simp

theorem eraseIdx_set_self (l : List (List Char)) (i : Nat) (x : List Char) :
    (l.set i x).eraseIdx i = l.eraseIdx i := by
  rw [List.eraseIdx_eq_take_drop_succ, List.eraseIdx_eq_take_drop_succ,
    take_set_self, drop_succ_set]

theorem pruneGo_eq (n : Nat) :
    ∀ (l : List (List Char)) (i : Nat), l.length - i ≤ n →
      pruneGo i l =
        l.take i ++ ((l.drop i).map trimWS).filter (fun s => !isBlankL s) := by
  induction n with
  | zero =>
    intro l i hn
    have h : ¬ i < l.length := by omega
    rw [pruneGo, dif_neg h]
    rw [List.drop_eq_nil_of_le (by omega), List.take_of_length_le (by omega)]
    simp
  | succ n ih =>
    intro l i hn
    by_cases h : i < l.length
    · have hget : l.get ⟨i, h⟩ = l[i] := rfl
      have hdrop : l.drop i = l[i] :: l.drop (i + 1) := List.drop_eq_getElem_cons h
      by_cases hb : isBlankL (trimWS (l.get ⟨i, h⟩))
      · rw [pruneGo, dif_pos h, if_pos hb, eraseIdx_set_self]
        have hlen : (l.eraseIdx i).length = l.length - 1 := by
          rw [List.length_eraseIdx, if_pos h]
        rw [ih (l.eraseIdx i) i (by omega)]
        rw [List.eraseIdx_eq_take_drop_succ]
        have htk : (List.take i l ++ List.drop (i + 1) l).take i = l.take i := by
          rw [List.take_append_eq_append_take]
          have h1 : (l.take i).length = i := List.length_take_of_le h.le
          rw [h1, List.take_take, Nat.sub_self]
          simp [Nat.min_self]
        have hdr : (List.take i l ++ List.drop (i + 1) l).drop i = l.drop (i + 1) := by
          rw [List.drop_append_eq_append_drop]
          have h1 : (l.take i).length = i := List.length_take_of_le h.le
          rw [h1, Nat.sub_self]
          simp [List.drop_of_length_le, h1]
        rw [htk, hdr]
        rw [hget] at hb
        have hmap : (l.drop i).map trimWS = trimWS l[i] :: (l.drop (i + 1)).map trimWS := by
          rw [hdrop]; rfl
        rw [hmap, List.filter_cons]
        simp [hb]
      · rw [pruneGo, dif_pos h, if_neg hb]
        rw [ih (l.set i (trimWS (l.get ⟨i, h⟩))) (i + 1) (by simp; omega)]
        rw [take_succ_set _ _ _ h, drop_succ_set]
        rw [hget] at hb ⊢
        have hmap : (l.drop i).map trimWS = trimWS l[i] :: (l.drop (i + 1)).map trimWS := by
          rw [hdrop]; rfl
        rw [hmap, List.filter_cons]
        simp [hb, List.append_assoc]
    · rw [pruneGo, dif_neg h]
      rw [List.drop_eq_nil_of_le (by omega), List.take_of_length_le (by omega)]
      simp

theorem trimPrune_eq (l : List (List Char)) :
    trimPrune l = (l.map trimWS).filter (fun s => !isBlankL s) := by
  have h := pruneGo_eq l.length l 0 (by omega)
  simpa [trimPrune] using h

theorem dropWhile_dropWhile (p : Char → Bool) (l : List Char) :
    (l.dropWhile p).dropWhile p = l.dropWhile p := by
  induction l with
  | nil => rfl
  | cons c rest ih =>
    by_cases hc : p c
    · rw [List.dropWhile_cons_of_pos hc, ih]
    · rw [List.dropWhile_cons_of_neg hc, List.dropWhile_cons_of_neg hc]

theorem head_not_of_dropWhile_self (p : Char → Bool) (c : Char) (m : List Char)
    (hm : (c :: m).dropWhile p = c :: m) : p c = false := by
  by_cases hc : p c
  · exfalso
    rw [List.dropWhile_cons_of_pos hc] at hm
    have := List.Sublist.length_le (List.dropWhile_sublist p (l := m))
    have := congrArg List.length hm
    simp at this
    omega
  · simpa using hc

theorem dropWhile_rstrip (m : List Char) (hm : m.dropWhile isWS = m) :
    ((m.reverse.dropWhile isWS).reverse).dropWhile isWS =
      (m.reverse.dropWhile isWS).reverse := by
  cases m with
  | nil => rfl
  | cons c m1 =>
    have hc : isWS c = false := head_not_of_dropWhile_self isWS c m1 hm
    rw [List.reverse_cons, List.dropWhile_append]
    by_cases he : (m1.reverse.dropWhile isWS).isEmpty
    · rw [if_pos he]
      rw [List.dropWhile_cons_of_neg (by simp [hc])]
      rw [List.reverse_singleton]
      rw [List.dropWhile_cons_of_neg (by simp [hc])]
    · rw [if_neg he]
      rw [List.reverse_append]
      simp only [List.reverse_cons, List.reverse_nil, List.nil_append,
        List.singleton_append]
      rw [List.dropWhile_cons_of_neg (by simp [hc])]

theorem trimWS_idem (l : List Char) : trimWS (trimWS l) = trimWS l := by
  unfold trimWS
  set m := l.dropWhile isWS with hm
  have hA : m.dropWhile isWS = m := dropWhile_dropWhile isWS l
  have hB := dropWhile_rstrip m hA
  rw [hB, List.reverse_reverse, dropWhile_dropWhile]

theorem mem_trimWS (c : Char) (l : List Char) (h : c ∈ trimWS l) : c ∈ l := by
  unfold trimWS at h
  rw [List.mem_reverse] at h
  have h1 := (List.dropWhile_sublist isWS (l := (l.dropWhile isWS).reverse)).mem h
  rw [List.mem_reverse] at h1
  exact (List.dropWhile_sublist isWS (l := l)).mem h1

theorem isBlankL_nil : isBlankL [] = true := rfl

theorem ne_nil_of_not_blank (l : List Char) (h : isBlankL l = false) : l ≠ [] := by
  intro he
  rw [he] at h
  exact absurd h (by simp [isBlankL])

/-! ## Lemmas: collapse of paragraph returns -/

theorem crRunsGo_replicate (m : Nat) :
    ∀ (k : Nat) (t : List Char),
      crRunsGo k (List.replicate m '\r' ++ t) = crRunsGo (k + m) t := by
  induction m with
  | zero => intro k t; simp
  | succ m ih =>
    intro k t
    rw [List.replicate_succ, List.cons_append, crRunsGo, if_pos rfl, ih]
    congr 1
    omega

theorem emitCR_eq_replicate (k : Nat) :
    emitCR k = List.replicate (min k 2) '\r' := by
  unfold emitCR
  by_cases h : 3 ≤ k
  · rw [if_pos h]
    have : min k 2 = 2 := by omega
    rw [this]
    rfl
  · rw [if_neg h]
    have : min k 2 = k := by omega
    rw [this]

theorem crRuns_head (k : Nat) : (if k = 0 then ([] : List Nat) else [k]).map (fun n => min n 2) =
    if min k 2 = 0 then [] else [min k 2] := by
  by_cases h : k = 0
  · subst h; rfl
  · rw [if_neg h, if_neg (by omega)]
    rfl

theorem crRuns_collapseGo (t : List Char) :
    ∀ k, crRunsGo 0 (collapseGo k t) = (crRunsGo k t).map (fun n => min n 2) := by
  induction t with
  | nil =>
    intro k
    rw [collapseGo, crRunsGo, emitCR_eq_replicate]
    have h := crRunsGo_replicate (min k 2) 0 []
    rw [List.append_nil] at h
    rw [h, crRunsGo]
    simp only [Nat.zero_add]
    exact (crRuns_head k).symm
  | cons c rest ih =>
    intro k
    by_cases hc : c = '\r'
    · rw [collapseGo, if_pos hc, crRunsGo, if_pos hc, ih]
    · rw [collapseGo, if_neg hc, crRunsGo, if_neg hc, emitCR_eq_replicate]
      rw [crRunsGo_replicate]
      simp only [Nat.zero_add]
      rw [List.map_append]
      have hstep : crRunsGo (min k 2) (c :: collapseGo 0 rest) =
          (if min k 2 = 0 then [] else [min k 2]) ++ crRunsGo 0 (collapseGo 0 rest) := by
        rw [crRunsGo, if_neg hc]
      rw [hstep, ih 0, crRuns_head]

/-- The collapse GREP takes every maximal run of paragraph returns to
a run of the same position whose length is capped at two (runs of one
or two returns are untouched, longer runs become exactly two). -/
theorem crRuns_collapseReturns (t : List Char) :
    crRuns (collapseReturns t) = (crRuns t).map (fun n => min n 2) :=
  crRuns_collapseGo t 0

theorem filter_collapseGo (t : List Char) :
    ∀ k, (collapseGo k t).filter (fun c => !(c == '\r')) =
      t.filter (fun c => !(c == '\r')) := by
  induction t with
  | nil =>
    intro k
    rw [collapseGo, emitCR_eq_replicate]
    simp [List.filter_replicate]
  | cons c rest ih =>
    intro k
    by_cases hc : c = '\r'
    · rw [collapseGo, if_pos hc, ih, List.filter_cons]
      simp [hc]
    · rw [collapseGo, if_neg hc, List.filter_append, emitCR_eq_replicate]
      rw [List.filter_cons, List.filter_cons]
      have hcb : (!(c == '\r')) = true := by simp [hc]
      simp only [hcb, if_pos]
      rw [ih 0]
      simp [List.filter_replicate]

theorem collapseGo_crfree_append (e : List Char) (t : List Char)
    (he : '\r' ∉ e) : collapseGo 0 (e ++ t) = e ++ collapseGo 0 t := by
  induction e with
  | nil => simp
  | cons c e1 ih =>
    have hc : ¬ c = '\r' := fun h => he (by rw [h]; exact List.mem_cons_self _ _)
    rw [List.cons_append, collapseGo, if_neg hc]
    rw [ih (fun h => he (List.mem_cons_of_mem c h))]
    rfl

theorem collapseGo_single_cr (t : List Char)
    (ht : t = [] ∨ ∃ c t1, t = c :: t1 ∧ c ≠ '\r') :
    collapseGo 0 ('\r' :: t) = '\r' :: collapseGo 0 t := by
  rw [collapseGo, if_pos rfl]
  rcases ht with h | ⟨c, t1, h, hc⟩
  · subst h; rfl
  · subst h
    rw [collapseGo, if_neg hc, collapseGo, if_neg hc]
    rfl

theorem storyText_cons_cons (p q : List Char) (ps : List (List Char)) :
    storyText (p :: q :: ps) = p ++ '\r' :: storyText (q :: ps) := rfl

theorem storyText_head (q : List Char) (qs : List (List Char)) (c : Char)
    (rest : List Char) (hq : q = c :: rest) :
    ∃ t1, storyText (q :: qs) = c :: t1 := by
  cases qs with
  | nil => exact ⟨rest, by rw [hq]; rfl⟩
  | cons q2 qs2 =>
    exact ⟨rest ++ '\r' :: storyText (q2 :: qs2),
      by rw [storyText_cons_cons, hq]; rfl⟩

theorem collapse_storyText (qs : List (List Char))
    (h : ∀ q ∈ qs, q ≠ [] ∧ '\r' ∉ q) :
    collapseGo 0 (storyText qs) = storyText qs := by
  induction qs with
  | nil => rfl
  | cons q qs2 ih =>
    have hq := h q (List.mem_cons_self _ _)
    cases qs2 with
    | nil =>
      show collapseGo 0 q = q
      have h0 := collapseGo_crfree_append q [] hq.2
      rw [List.append_nil] at h0
      rw [h0]
      simp [collapseGo, emitCR]
    | cons q2 qs3 =>
      rw [storyText_cons_cons]
      rw [collapseGo_crfree_append q _ hq.2]
      have hq2 := h q2 (List.mem_cons_of_mem q (List.mem_cons_self _ _))
      obtain ⟨c, rest, hc⟩ := List.exists_cons_of_ne_nil hq2.1
      obtain ⟨t1, ht1⟩ := storyText_head q2 qs3 c rest hc
      have hcr : c ≠ '\r' := by
        intro he
        exact hq2.2 (by rw [hc, he]; exact List.mem_cons_self _ _)
      rw [ht1, collapseGo_single_cr (c :: t1) (Or.inr ⟨c, t1, rfl, hcr⟩)]
      rw [← ht1, ih (fun q hmem => h q (List.mem_cons_of_mem _ hmem))]

/-! ## Lemmas: split/join round trip for clean paragraph lists -/

theorem splitCR_crfree_append (e : List Char) :
    ∀ (t : List Char) (q : List Char) (qs : List (List Char)),
      '\r' ∉ e → splitCR t = q :: qs → splitCR (e ++ t) = (e ++ q) :: qs := by
  induction e with
  | nil => intro t q qs _ h; simpa using h
  | cons c e1 ih =>
    intro t q qs he h
    have hc : ¬ c = '\r' := fun hcc => he (by rw [hcc]; exact List.mem_cons_self _ _)
    have he1 : '\r' ∉ e1 := fun hm => he (List.mem_cons_of_mem c hm)
    rw [List.cons_append, splitCR, if_neg hc, ih t q qs he1 h]
    rfl

theorem splitCR_cr (t : List Char) : splitCR ('\r' :: t) = [] :: splitCR t := by
  rw [splitCR, if_pos rfl]

theorem splitCR_ne_nil (t : List Char) : splitCR t ≠ [] := by
  cases t with
  | nil => simp [splitCR]
  | cons c rest =>
    rw [splitCR]
    by_cases hc : c = '\r'
    · rw [if_pos hc]; simp
    · rw [if_neg hc]
      rcases hs : splitCR rest with _ | ⟨q, qs⟩ <;> simp

theorem splitCR_storyText (qs : List (List Char))
    (h : ∀ q ∈ qs, q ≠ [] ∧ '\r' ∉ q) (hne : qs ≠ []) :
    splitCR (storyText qs) = qs := by
  induction qs with
  | nil => exact absurd rfl hne
  | cons q qs2 ih =>
    have hq := h q (List.mem_cons_self _ _)
    cases qs2 with
    | nil =>
      show splitCR q = [q]
      have h0 : splitCR (q ++ []) = (q ++ []) :: [] :=
        splitCR_crfree_append q [] [] [] hq.2 rfl
      simpa using h0
    | cons q2 qs3 =>
      rw [storyText_cons_cons]
      have hih := ih (fun x hx => h x (List.mem_cons_of_mem _ hx)) (by simp)
      have hsp : splitCR ('\r' :: storyText (q2 :: qs3)) =
          [] :: (q2 :: qs3) := by rw [splitCR_cr, hih]
      have := splitCR_crfree_append q ('\r' :: storyText (q2 :: qs3)) [] (q2 :: qs3)
        hq.2 hsp
      simpa using this

theorem storyText_getLast (qs : List (List Char))
    (h : ∀ q ∈ qs, q ≠ [] ∧ '\r' ∉ q) (hne : qs ≠ []) :
    ∃ c, (storyText qs).getLast? = some c ∧ c ≠ '\r' := by
  induction qs with
  | nil => exact absurd rfl hne
  | cons q qs2 ih =>
    have hq := h q (List.mem_cons_self _ _)
    cases qs2 with
    | nil =>
      refine ⟨q.getLast hq.1, ?_, ?_⟩
      · show q.getLast? = _
        exact List.getLast?_eq_getLast q hq.1
      · intro hc
        exact hq.2 (hc ▸ List.getLast_mem hq.1)
    | cons q2 qs3 =>
      obtain ⟨c, hcl, hcr⟩ := ih (fun x hx => h x (List.mem_cons_of_mem _ hx)) (by simp)
      refine ⟨c, ?_, hcr⟩
      rw [storyText_cons_cons, List.getLast?_append]
      have hX : ('\r' :: storyText (q2 :: qs3)).getLast? = some c := by
        have h2 : ('\r' :: storyText (q2 :: qs3)) = ['\r'] ++ storyText (q2 :: qs3) := rfl
        rw [h2, List.getLast?_append, hcl]
        rfl
      rw [hX]
      rfl

theorem paragraphsOf_storyText (qs : List (List Char))
    (h : ∀ q ∈ qs, q ≠ [] ∧ '\r' ∉ q) :
    paragraphsOf (storyText qs) = qs := by
  cases qs with
  | nil => rfl
  | cons q qs2 =>
    obtain ⟨c, hcl, hcr⟩ := storyText_getLast (q :: qs2) h (by simp)
    rw [paragraphsOf, hcl]
    simp only [if_neg hcr]
    exact splitCR_storyText (q :: qs2) h (by simp)

/-! ## Lemmas: properties of sanitized output -/

theorem crfree_splitCR : ∀ (t : List Char) (q : List Char),
    q ∈ splitCR t → '\r' ∉ q := by
  intro t
  induction t with
  | nil =>
    intro q hq
    simp [splitCR] at hq
    simp [hq]
  | cons c rest ih =>
    intro q hq
    by_cases hc : c = '\r'
    · rw [splitCR, if_pos hc] at hq
      rcases List.mem_cons.mp hq with h | h
      · simp [h]
      · exact ih q h
    · rw [splitCR, if_neg hc] at hq
      rcases hs : splitCR rest with _ | ⟨q0, qs⟩
      · exact absurd hs (splitCR_ne_nil rest)
      · rw [hs] at hq
        rcases List.mem_cons.mp hq with h | h
        · subst h
          intro hm
          rcases List.mem_cons.mp hm with h1 | h1
          · exact hc h1.symm
          · exact ih q0 (hs ▸ List.mem_cons_self _ _) h1
        · exact ih q (hs ▸ List.mem_cons_of_mem _ h)

theorem crfree_paragraphsOf (t : List Char) (q : List Char)
    (hq : q ∈ paragraphsOf t) : '\r' ∉ q := by
  unfold paragraphsOf at hq
  rcases hl : t.getLast? with _ | c
  · rw [hl] at hq
    simp at hq
  · rw [hl] at hq
    dsimp only at hq
    by_cases hc : c = '\r'
    · rw [if_pos hc] at hq
      exact crfree_splitCR t q ((List.dropLast_sublist _).mem hq)
    · rw [if_neg hc] at hq
      exact crfree_splitCR t q hq

theorem sanitizeParas_mem (t : List Char) (q : List Char)
    (hq : q ∈ sanitizeParas t) :
    trimWS q = q ∧ isBlankL q = false ∧ q ≠ [] ∧ '\r' ∉ q := by
  unfold sanitizeParas at hq
  rw [trimPrune_eq] at hq
  have hblank : isBlankL q = false := by
    have := List.of_mem_filter hq
    simpa using this
  have hmem := (List.mem_filter.mp hq).1
  obtain ⟨p, hp, hpq⟩ := List.mem_map.mp hmem
  refine ⟨?_, hblank, ne_nil_of_not_blank q hblank, ?_⟩
  · rw [← hpq, trimWS_idem]
  · intro hcr
    rw [← hpq] at hcr
    exact crfree_paragraphsOf _ p hp (mem_trimWS '\r' p hcr)

theorem trimPrune_fixed (qs : List (List Char))
    (h : ∀ q ∈ qs, trimWS q = q ∧ isBlankL q = false) :
    trimPrune qs = qs := by
  rw [trimPrune_eq]
  have hmap : qs.map trimWS = qs := by
    have := List.map_congr_left (f := trimWS) (g := id)
      (fun q hq => (h q hq).1)
    simpa using this
  rw [hmap]
  exact List.filter_eq_self.mpr (fun q hq => by simp [(h q hq).2])

theorem sanitizeParas_storyText (t : List Char) :
    sanitizeParas (storyText (sanitizeParas t)) = sanitizeParas t := by
  have hmem := sanitizeParas_mem t
  have hclean : ∀ q ∈ sanitizeParas t, q ≠ [] ∧ '\r' ∉ q :=
    fun q hq => ⟨(hmem q hq).2.2.1, (hmem q hq).2.2.2⟩
  show trimPrune (paragraphsOf (collapseReturns (storyText (sanitizeParas t)))) = _
  rw [show collapseReturns (storyText (sanitizeParas t)) =
      collapseGo 0 (storyText (sanitizeParas t)) from rfl]
  rw [collapse_storyText _ hclean]
  rw [paragraphsOf_storyText _ hclean]
  exact trimPrune_fixed _ (fun q hq => ⟨(hmem q hq).1, (hmem q hq).2.1⟩)

/-! ## Lemmas: pagination -/

theorem overflows_stepPaginate (d : Doc) (h : frameCap d.geom = 0) :
    overflows (stepPaginate d) = overflows d := by
  unfold overflows stepPaginate
  simp [h]

theorem paginate_none_of_cap0 (n : Nat) :
    ∀ d : Doc, frameCap d.geom = 0 → overflows d = true → paginate n d = none := by
  induction n with
  | zero =>
    intro d hcap hof
    rw [paginate, if_pos hof]
  | succ n ih =>
    intro d hcap hof
    rw [paginate, if_pos hof]
    exact ih (stepPaginate d)
      (by simpa [stepPaginate] using hcap)
      (by rw [overflows_stepPaginate d hcap]; exact hof)

theorem chain_stepPaginate (d : Doc) :
    (stepPaginate d).chain = d.chain ++ [⟨d.pages, frameCap d.geom⟩] := rfl

theorem chainOrdered_step (d : Doc) (h1 : chainOrdered d) (h2 : chainOnPages d) :
    chainOrdered (stepPaginate d) := by
  unfold chainOrdered at h1 ⊢
  rw [chain_stepPaginate]
  rw [List.chain'_append]
  refine ⟨h1, List.chain'_singleton _, ?_⟩
  intro x hx y hy
  have hym : y = Frame.mk d.pages (frameCap d.geom) := by
    simpa [eq_comm] using hy
  subst hym
  exact h2 x (List.mem_of_mem_getLast? hx)

theorem chainOnPages_step (d : Doc) (h2 : chainOnPages d) :
    chainOnPages (stepPaginate d) := by
  unfold chainOnPages at h2 ⊢
  rw [chain_stepPaginate]
  intro f hf
  rcases List.mem_append.mp hf with h | h
  · have := h2 f h
    simp [stepPaginate]
    omega
  · have hfm : f = Frame.mk d.pages (frameCap d.geom) := by simpa using h
    subst hfm
    simp [stepPaginate]

theorem paginate_props (n : Nat) :
    ∀ (d d' : Doc), chainOrdered d → chainOnPages d → paginate n d = some d' →
      overflows d' = false ∧ chainOrdered d' ∧ chainOnPages d' ∧
      d.pages ≤ d'.pages ∧ d'.geom = d.geom ∧
      ∃ tail, d'.chain = d.chain ++ tail ∧ ∀ f ∈ tail, f.cap = frameCap d.geom := by
  induction n with
  | zero =>
    intro d d' h1 h2 hrun
    rw [paginate] at hrun
    by_cases hof : overflows d
    · rw [if_pos hof] at hrun; exact absurd hrun (by simp)
    · rw [if_neg hof] at hrun
      have hd : d' = d := by simpa using hrun.symm
      subst hd
      exact ⟨by simpa using hof, h1, h2, le_refl _, rfl, [], by simp, by simp⟩
  | succ n ih =>
    intro d d' h1 h2 hrun
    rw [paginate] at hrun
    by_cases hof : overflows d
    · rw [if_pos hof] at hrun
      obtain ⟨hov, ho1, ho2, hp, hg, tail, htail, hcap⟩ :=
        ih (stepPaginate d) d' (chainOrdered_step d h1 h2) (chainOnPages_step d h2) hrun
      refine ⟨hov, ho1, ho2, ?_, ?_, (⟨d.pages, frameCap d.geom⟩ : Frame) :: tail, ?_, ?_⟩
      · have hstep : (stepPaginate d).pages = d.pages + 1 := rfl
        omega
      · rw [hg]; rfl
      · rw [htail, chain_stepPaginate, List.append_assoc]
        rfl
      · intro f hf
        rcases List.mem_cons.mp hf with h | h
        · subst h; rfl
        · have := hcap f h
          rw [this]; rfl
    · rw [if_neg hof] at hrun
      have hd : d' = d := by simpa using hrun.symm
      subst hd
      exact ⟨by simpa using hof, h1, h2, le_refl _, rfl, [], by simp, by simp⟩

/-! ## Lemmas: bullet classification -/

theorem rstrip_cons (c : Char) (r : List Char) (hc : isWS c = false) :
    rstrip (c :: r) = c :: rstrip r := by
  unfold rstrip
  rw [List.reverse_cons, List.dropWhile_append]
  by_cases he : (r.reverse.dropWhile isWS).isEmpty
  · rw [if_pos he]
    rw [List.dropWhile_cons_of_neg (by simp [hc])]
    rw [List.isEmpty_iff] at he
    rw [he]
    rfl
  · rw [if_neg he]
    rw [List.reverse_append]
    rfl

theorem subChar_cases (c : Char) (h : subChars.contains c = true) :
    c = '○' ∨ c = '◦' ∨ c = 'o' := by
  have hm : c ∈ subChars := by simpa using h
  simpa [subChars] using hm

theorem subChar_not_ws (c : Char) (h : subChars.contains c = true) :
    isWS c = false := by
  rcases subChar_cases c h with h1 | h1 | h1 <;> subst h1 <;> decide

theorem subChar_glyph (c : Char) (h : subChars.contains c = true) :
    glyphChars.contains c = true := by
  rcases subChar_cases c h with h1 | h1 | h1 <;> subst h1 <;> decide

theorem stepFlag_skip (prev : Bool) (p : Para)
    (h : skipNBL2 p.styleName = true) : stepFlag prev p = false := by
  unfold stepFlag
  rw [if_pos h]

theorem stepFlag_go (prev : Bool) (p : Para)
    (h : skipNBL2 p.styleName = false) : stepFlag prev p = shouldBullet prev p := by
  unfold stepFlag
  rw [if_neg (by simp [h])]

theorem nbl2Go_getElem (st : Styles) :
    ∀ (ps : List Para) (prev : Bool) (k : Nat),
      (nbl2Go st prev ps)[k]? = (ps[k]?).map (fun p =>
        if !skipNBL2 p.styleName &&
            shouldBullet ((ps.take k).foldl stepFlag prev) p
        then bulletize2 st p else p) := by
  intro ps
  induction ps with
  | nil => intro prev k; simp [nbl2Go]
  | cons p rest ih =>
    intro prev k
    cases k with
    | zero =>
      rw [nbl2Go]
      by_cases hs : skipNBL2 p.styleName
      · rw [if_pos hs]
        simp [hs]
      · rw [if_neg hs]
        by_cases hb : shouldBullet prev p
        · rw [if_pos hb]
          simp [hs, hb]
        · rw [if_neg hb]
          simp [hs, hb]
    | succ k =>
      have htake : ((p :: rest).take (k + 1)).foldl stepFlag prev =
          (rest.take k).foldl stepFlag (stepFlag prev p) := by
        rw [List.take_succ_cons, List.foldl_cons]
      rw [nbl2Go]
      by_cases hs : skipNBL2 p.styleName
      · rw [if_pos hs]
        have hflag : stepFlag prev p = false := stepFlag_skip prev p hs
        rw [List.getElem?_cons_succ, ih false k, List.getElem?_cons_succ]
        rw [htake, hflag]
      · rw [if_neg hs]
        have hflag : stepFlag prev p = shouldBullet prev p :=
          stepFlag_go prev p (by simpa using hs)
        by_cases hb : shouldBullet prev p
        · rw [if_pos hb]
          rw [List.getElem?_cons_succ, ih true k, List.getElem?_cons_succ]
          rw [htake, hflag, hb]
        · rw [if_neg hb]
          rw [List.getElem?_cons_succ, ih false k, List.getElem?_cons_succ]
          rw [htake, hflag]
          simp only [Bool.not_eq_true] at hb
          rw [hb]

theorem flagAt_succ (ps : List Para) (k : Nat) (hk : k < ps.length) :
    flagAt ps (k + 1) = stepFlag (flagAt ps k) (ps.get ⟨k, hk⟩) := by
  unfold flagAt
  rw [List.take_succ]
  have hsome : ps[k]? = some (ps.get ⟨k, hk⟩) := by
    rw [List.getElem?_eq_getElem hk]
    rfl
  rw [hsome]
  rw [List.foldl_append]
  rfl

theorem classifiedAt_eq (ps : List Para) (k : Nat) (hk : k < ps.length) :
    classifiedAt ps k =
      (!skipNBL2 (ps.get ⟨k, hk⟩).styleName &&
        shouldBullet (flagAt ps k) (ps.get ⟨k, hk⟩)) := by
  unfold classifiedAt
  rw [List.getElem?_eq_getElem hk]
  rfl

/-! ## Claim theorems -/

/-- C7: the trim-and-prune pass trims every paragraph's leading and
trailing whitespace and deletes every paragraph that is empty after
trimming; the indexed deletion with `i--` never skips the paragraph
that shifts into a deleted one's position, so the loop is exactly
"trim all, keep the non-blank ones" and no whitespace-only paragraph
remains anywhere afterwards. -/
theorem c7_trim_prune (l : List (List Char)) :
    trimPrune l = (l.map trimWS).filter (fun s => !isBlankL s) ∧
    (trimPrune l).all (fun s => !isBlankL s) = true := by
  refine ⟨trimPrune_eq l, ?_⟩
  rw [trimPrune_eq]
  rw [List.all_eq_true]
  intro s hs
  simpa using List.of_mem_filter hs

/-- C6: the sanitizer stage (whitespace collapse followed by
trim-and-prune) is idempotent: re-running it on its own output changes
no paragraph and removes no paragraph, at the paragraph level and at
the story-text level. -/
theorem c6_sanitizer_idempotent (t : List Char) :
    sanitizeParas (storyText (sanitizeParas t)) = sanitizeParas t ∧
    sanitizeStory (sanitizeStory t) = sanitizeStory t := by
  refine ⟨sanitizeParas_storyText t, ?_⟩
  show storyText (sanitizeParas (storyText (sanitizeParas t))) = _
  rw [sanitizeParas_storyText t]
  rfl

/-- C2 (counterexample): on the story "a", blank, blank, blank, "b"
(a run of three consecutive blank paragraphs), the full sanitizer
stage leaves zero blank paragraphs in that position, not exactly
one — the trim-and-prune pass deletes the single blank separator the
collapse pass produced. -/
theorem c2_counterexample :
    sanitizeParas exRunText = [['a'], ['b']] ∧
    ((sanitizeParas exRunText).filter (fun s => isBlankL s)).length ≠ 1 := by
  have h : sanitizeParas exRunText =
      ((paragraphsOf (collapseReturns exRunText)).map trimWS).filter
        (fun s => !isBlankL s) := trimPrune_eq _
  rw [h]
  constructor
  · decide
  · decide

/-- C2 (amended): the whitespace-collapse pass reduces every maximal
run of paragraph-break sequences to at most two breaks (runs of three
or more become exactly two, i.e. one blank separator) while preserving
all non-break characters in place; the subsequent trim-and-prune pass
then deletes every blank paragraph, so after the full sanitizer stage
no blank paragraph remains at all. -/
theorem c2_amended (t : List Char) :
    crRuns (collapseReturns t) = (crRuns t).map (fun n => min n 2) ∧
    (collapseReturns t).filter (fun c => !(c == '\r')) =
      t.filter (fun c => !(c == '\r')) ∧
    (sanitizeParas t).all (fun s => !isBlankL s) = true := by
  refine ⟨crRuns_collapseReturns t, filter_collapseGo t 0, ?_⟩
  have h : sanitizeParas t =
      ((paragraphsOf (collapseReturns t)).map trimWS).filter
        (fun s => !isBlankL s) := trimPrune_eq _
  rw [h, List.all_eq_true]
  intro s hs
  simpa using List.of_mem_filter hs

/-- C1: whenever the pagination loop completes (some fuel suffices),
starting from a document whose container chain is on existing pages in
strictly increasing page order, the final story no longer overflows,
the chain is still on existing pages in strictly increasing page order
(every container sits on a page strictly after its predecessor's), no
page is ever removed (the page count only grows), the geometry is
untouched, and the loop only appended margin-derived containers at the
end of the chain. -/
theorem c1_pagination (n : Nat) (d d' : Doc)
    (h1 : chainOrdered d) (h2 : chainOnPages d)
    (hrun : paginate n d = some d') :
    overflows d' = false ∧ chainOrdered d' ∧ chainOnPages d' ∧
    d.pages ≤ d'.pages ∧ d'.geom = d.geom ∧
    ∃ tail, d'.chain = d.chain ++ tail ∧ ∀ f ∈ tail, f.cap = frameCap d.geom :=
  paginate_props n d d' h1 h2 hrun

theorem exDoc0_ordered : chainOrdered exDoc0 := by
  show List.Chain' (fun a b : Frame => a.page < b.page)
    ([⟨0, 10⟩] : List Frame)
  exact List.chain'_singleton _

theorem exDoc1_ordered : chainOrdered exDoc1 := by
  show List.Chain' (fun a b : Frame => a.page < b.page)
    ([⟨0, 10⟩, ⟨1, 10⟩, ⟨2, 10⟩] : List Frame)
  exact List.chain'_cons.mpr ⟨by decide,
    List.chain'_cons.mpr ⟨by decide, List.chain'_singleton _⟩⟩

/-- C1 (witness): a story needing exactly three container-fulls
(capacity 10, content 30) paginates to exactly two additional pages,
chained in content order, with a final overflow flag of false. -/
theorem c1_pagination_witness :
    (chainOrdered exDoc0 ∧ chainOnPages exDoc0 ∧
      paginate 5 exDoc0 = some exDoc1 ∧ exDoc1.pages = 3) ∧
    (overflows exDoc1 = false ∧ chainOrdered exDoc1 ∧ chainOnPages exDoc1 ∧
      exDoc0.pages ≤ exDoc1.pages ∧ exDoc1.geom = exDoc0.geom ∧
      ∃ tail, exDoc1.chain = exDoc0.chain ++ tail ∧
        ∀ f ∈ tail, f.cap = frameCap exDoc0.geom) :=
  ⟨⟨exDoc0_ordered, by unfold chainOnPages; decide,
    by decide, by decide⟩,
   c1_pagination 5 exDoc0 exDoc1 exDoc0_ordered
     (by unfold chainOnPages; decide) (by decide)⟩

/-- C9 (counterexample): the pagination loop does not terminate for
every input and imposes no iteration/page cap: from the concrete
overflowing document whose margins meet the page size (zero usable
area per added container), no amount of fuel makes
`while (story.overflows)` exit. -/
theorem c9_counterexample : paginateNeverStops exBadDoc :=
  fun n => paginate_none_of_cap0 n exBadDoc (by decide) (by decide)

/-- C9 (amended): the source imposes no iteration or page cap; in the
failure mode where every margin-derived container has zero usable
area, an overflowing story makes the pagination loop run forever
(under any finite fuel it has not terminated). -/
theorem c9_amended (n : Nat) (d : Doc)
    (h1 : frameCap d.geom = 0) (h2 : overflows d = true) :
    paginate n d = none :=
  paginate_none_of_cap0 n d h1 h2

/-- C9 (witness for the amended claim). -/
theorem c9_amended_witness :
    frameCap exBadDoc.geom = 0 ∧ overflows exBadDoc = true ∧
    paginate 100 exBadDoc = none :=
  ⟨by decide, by decide, c9_amended 100 exBadDoc (by decide) (by decide)⟩

/-- C3 (counterexample): a paragraph whose source style name is
"Heading 2", against a registry where the "Heading 2" target is
unregistered but "Body" is registered, is NOT left untouched: the
mapping chain's final fallback reassigns it to the body style. -/
theorem c3_counterexample :
    mapParaStyle exStyles3 (("Heading 2").toList) = some (("Body").toList) ∧
    some (("Body").toList) ≠ (none : Option (List Char)) := by
  exact ⟨by decide, by decide⟩

/-- C3 (amended): for a paragraph whose source style name matches
exactly one Heading-k pattern (k between 1 and 6) and not the Normal
pattern: if the correspondingly named target style is registered the
paragraph is reassigned to it; if that target is unregistered the
paragraph falls through to the chain's body fallback — it is
reassigned to the body style when one is registered, and only left
untouched when the body style is unregistered too. -/
theorem c3_amended (st : Styles) (src : List Char) (k : Nat)
    (hk1 : 1 ≤ k) (hk6 : k ≤ 6)
    (hm : matchesH k src = true)
    (ho : ∀ j < 7, 1 ≤ j → j ≠ k → matchesH j src = false)
    (hn : matchesNormal src = false) :
    mapParaStyle st src = if (hStyle st k).isSome then hStyle st k else st.body := by
  interval_cases k
  · have e2 := ho 2 (by omega) (by omega) (by omega)
    have e3 := ho 3 (by omega) (by omega) (by omega)
    have e4 := ho 4 (by omega) (by omega) (by omega)
    have e5 := ho 5 (by omega) (by omega) (by omega)
    have e6 := ho 6 (by omega) (by omega) (by omega)
    simp [mapParaStyle, hStyle, hn, hm, e2, e3, e4, e5, e6]
  · have e1 := ho 1 (by omega) (by omega) (by omega)
    have e3 := ho 3 (by omega) (by omega) (by omega)
    have e4 := ho 4 (by omega) (by omega) (by omega)
    have e5 := ho 5 (by omega) (by omega) (by omega)
    have e6 := ho 6 (by omega) (by omega) (by omega)
    simp [mapParaStyle, hStyle, hn, hm, e1, e3, e4, e5, e6]
  · have e1 := ho 1 (by omega) (by omega) (by omega)
    have e2 := ho 2 (by omega) (by omega) (by omega)
    have e4 := ho 4 (by omega) (by omega) (by omega)
    have e5 := ho 5 (by omega) (by omega) (by omega)
    have e6 := ho 6 (by omega) (by omega) (by omega)
    simp [mapParaStyle, hStyle, hn, hm, e1, e2, e4, e5, e6]
  · have e1 := ho 1 (by omega) (by omega) (by omega)
    have e2 := ho 2 (by omega) (by omega) (by omega)
    have e3 := ho 3 (by omega) (by omega) (by omega)
    have e5 := ho 5 (by omega) (by omega) (by omega)
    have e6 := ho 6 (by omega) (by omega) (by omega)
    simp [mapParaStyle, hStyle, hn, hm, e1, e2, e3, e5, e6]
  · have e1 := ho 1 (by omega) (by omega) (by omega)
    have e2 := ho 2 (by omega) (by omega) (by omega)
    have e3 := ho 3 (by omega) (by omega) (by omega)
    have e4 := ho 4 (by omega) (by omega) (by omega)
    have e6 := ho 6 (by omega) (by omega) (by omega)
    simp [mapParaStyle, hStyle, hn, hm, e1, e2, e3, e4, e6]
  · have e1 := ho 1 (by omega) (by omega) (by omega)
    have e2 := ho 2 (by omega) (by omega) (by omega)
    have e3 := ho 3 (by omega) (by omega) (by omega)
    have e4 := ho 4 (by omega) (by omega) (by omega)
    have e5 := ho 5 (by omega) (by omega) (by omega)
    simp [mapParaStyle, hStyle, hn, hm, e1, e2, e3, e4, e5]

/-- C3 (witness for the amended claim): at source name "Heading 2"
with the "Heading 2" target unregistered and "Body" registered, the
chain yields the body fallback. -/
theorem c3_amended_witness :
    (matchesH 2 (("Heading 2").toList) = true ∧
      (∀ j < 7, 1 ≤ j → j ≠ 2 → matchesH j (("Heading 2").toList) = false) ∧
      matchesNormal (("Heading 2").toList) = false) ∧
    mapParaStyle exStyles3 (("Heading 2").toList) =
      (if (hStyle exStyles3 2).isSome then hStyle exStyles3 2
       else exStyles3.body) :=
  ⟨⟨by decide, by decide, by decide⟩,
   c3_amended exStyles3 (("Heading 2").toList) 2 (by decide) (by decide)
     (by decide) (by decide) (by decide)⟩

/-- C4 (counterexample): in `normalizeBulletsAndLists` (the variant
cited by the claim alongside `normalizeBullets`) there is no
sub-bullet branch at all: a paragraph leading with the open-circle
sub-bullet glyph receives the primary bullet style "Bullets", not the
registered "Sub-Bullets" style. -/
theorem c4_counterexample :
    (nblPara exStylesB exParaSub).styleName = (("Bullets").toList) ∧
    exStylesB.subBullet = some (("Sub-Bullets").toList) ∧
    (("Bullets").toList) ≠ (("Sub-Bullets").toList) := by
  refine ⟨by decide, by decide, by decide⟩

/-- C4 (amended): in the `normalizeBullets` pass, sub-bullet glyphs
(open circle, lowercase o) are tested before primary-bullet glyphs, so
a paragraph leading with a sub-bullet glyph receives the sub-bullet
style; in the `normalizeBulletsAndLists` pass there is no sub-bullet
branch and the same paragraph receives the primary bullet style.  In
both, the spec's bullet paragraph "• Item one" ends with content
"Item one", the primary bullet style applied, and the native list
type set. -/
theorem c4_amended (st : Styles) (p : Para)
    (hsub : st.subBullet.isSome = true)
    (hbul : st.bullet.isSome = true)
    (hhead : subTest p.contents = true)
    (hskip : skipHT p.styleName = false) :
    (some ((nbPara st p).styleName) = st.subBullet ∧
      (nbPara st p).listBullet = true ∧
      (nbPara st p).contents = stripOneGlyph p.contents) ∧
    (some ((nblPara st p).styleName) = st.bullet ∧
      (nblPara st p).listBullet = true) ∧
    ((nbPara st exParaItem).contents = (("Item one").toList) ∧
      some ((nbPara st exParaItem).styleName) = st.bullet ∧
      (nbPara st exParaItem).listBullet = true) ∧
    ((nblPara st exParaItem).contents = (("Item one").toList) ∧
      some ((nblPara st exParaItem).styleName) = st.bullet ∧
      (nblPara st exParaItem).listBullet = true) := by
  obtain ⟨sb, hsb⟩ := Option.isSome_iff_exists.mp hsub
  obtain ⟨bu, hbu⟩ := Option.isSome_iff_exists.mp hbul
  rcases hc : p.contents with _ | ⟨c, rest⟩
  · rw [hc] at hhead
    exact absurd hhead (by decide)
  · have hcs : subChars.contains c = true := by
      rw [hc] at hhead
      simpa [subTest] using hhead
    have hws := subChar_not_ws c hcs
    have hr : rstrip p.contents = c :: rstrip rest := by
      rw [hc]
      exact rstrip_cons c rest hws
    have hg : glyphTest (rstrip p.contents) = true := by
      rw [hr]
      have hgc := subChar_glyph c hcs
      simp only [glyphTest]
      exact hgc
    have hhead2 : subTest (c :: rest) = true := by
      rw [← hc]
      exact hhead
    have hsubT : subTest exParaItem.contents = false := by decide
    have hprimT : primTest exParaItem.contents = true := by decide
    have hskipI : skipHT exParaItem.styleName = false := by decide
    have hgI : glyphTest (rstrip exParaItem.contents) = true := by decide
    refine ⟨?_, ?_, ?_, ?_⟩
    · simp [nbPara, hsb, hc, hhead2]
    · simp [nblPara, hskip, hg, hbu]
    · refine ⟨?_, ?_, ?_⟩
      · simp [nbPara, hsubT, hprimT, hsb, hbu]
        try decide
      · simp [nbPara, hsubT, hprimT, hsb, hbu]
        try decide
      · simp [nbPara, hsubT, hprimT, hsb, hbu]
        try decide
    · refine ⟨?_, ?_, ?_⟩
      · simp [nblPara, hskipI, hgI, hbu]
        try decide
      · simp [nblPara, hskipI, hgI, hbu]
        try decide
      · simp [nblPara, hskipI, hgI, hbu]
        try decide

/-- C4 (witness for the amended claim): the open-circle paragraph
"○ Sub item" against registered "Bullets"/"Sub-Bullets" styles. -/
theorem c4_amended_witness :
    (exStylesB.subBullet.isSome = true ∧ exStylesB.bullet.isSome = true ∧
      subTest exParaSub.contents = true ∧ skipHT exParaSub.styleName = false) ∧
    ((some ((nbPara exStylesB exParaSub).styleName) = exStylesB.subBullet ∧
      (nbPara exStylesB exParaSub).listBullet = true ∧
      (nbPara exStylesB exParaSub).contents = stripOneGlyph exParaSub.contents) ∧
    (some ((nblPara exStylesB exParaSub).styleName) = exStylesB.bullet ∧
      (nblPara exStylesB exParaSub).listBullet = true) ∧
    ((nbPara exStylesB exParaItem).contents = (("Item one").toList) ∧
      some ((nbPara exStylesB exParaItem).styleName) = exStylesB.bullet ∧
      (nbPara exStylesB exParaItem).listBullet = true) ∧
    ((nblPara exStylesB exParaItem).contents = (("Item one").toList) ∧
      some ((nblPara exStylesB exParaItem).styleName) = exStylesB.bullet ∧
      (nblPara exStylesB exParaItem).listBullet = true)) :=
  ⟨⟨by decide, by decide, by decide, by decide⟩,
   c4_amended exStylesB exParaSub (by decide) (by decide) (by decide) (by decide)⟩

/-- C10: the combined glyph class of `normalizeBulletsAndLists`
requires no whitespace, tab, or word boundary after the matched
character and includes lowercase o, hyphen, and en-dash, so every
non-heading, non-table paragraph whose text begins with one of those
characters — an ordinary word such as "once" included — counts as
bullet evidence, has its leading class-character run (plus any
following whitespace) stripped, and receives the bullet style with
the native list type set. -/
theorem c10_glyph_false_positive (st : Styles) (p : Para) (c : Char)
    (hb : st.bullet.isSome = true)
    (hskip : skipHT p.styleName = false)
    (hc : p.contents.head? = some c)
    (hmem : c = 'o' ∨ c = '-' ∨ c = '–') :
    glyphTest (rstrip p.contents) = true ∧
    (nblPara st p).contents = stripGlyph (rstrip p.contents) ∧
    some ((nblPara st p).styleName) = st.bullet ∧
    (nblPara st p).listBullet = true := by
  obtain ⟨bu, hbu⟩ := Option.isSome_iff_exists.mp hb
  rcases hcl : p.contents with _ | ⟨c0, rest⟩
  · rw [hcl] at hc
    exact absurd hc (by simp)
  · have hc0 : c0 = c := by
      rw [hcl] at hc
      simpa using hc
    subst hc0
    have hws : isWS c0 = false := by
      rcases hmem with h | h | h <;> subst h <;> decide
    have hgc : glyphChars.contains c0 = true := by
      rcases hmem with h | h | h <;> subst h <;> decide
    have hg : glyphTest (rstrip p.contents) = true := by
      rw [hcl, rstrip_cons c0 rest hws]
      simp only [glyphTest]
      exact hgc
    rw [← hcl]
    refine ⟨hg, ?_⟩
    simp [nblPara, hskip, hg, hbu]

/-- C10 (witness): the body paragraph "once upon a time" is classified
as a bullet, stripped to "nce upon a time", and styled "Bullets". -/
theorem c10_witness :
    (exStylesB.bullet.isSome = true ∧ skipHT exParaOnce.styleName = false ∧
      exParaOnce.contents.head? = some 'o') ∧
    (glyphTest (rstrip exParaOnce.contents) = true ∧
      (nblPara exStylesB exParaOnce).contents =
        stripGlyph (rstrip exParaOnce.contents) ∧
      some ((nblPara exStylesB exParaOnce).styleName) = exStylesB.bullet ∧
      (nblPara exStylesB exParaOnce).listBullet = true) ∧
    stripGlyph (rstrip exParaOnce.contents) = (("nce upon a time").toList) :=
  ⟨⟨by decide, by decide, by decide⟩,
   c10_glyph_false_positive exStylesB exParaOnce 'o' (by decide) (by decide)
     (by decide) (Or.inl rfl),
   by decide⟩

/-- C5: for every document hyperlink, the registered hyperlink
character style is applied to the link's source text range if and only
if the destination is a literal external URL (an explicit
URL-destination type, or an address beginning with the http, https,
mailto, or ftp scheme) and the source is a non-empty text range;
internal/anchor destinations, non-text sources, zero-length ranges,
and an unregistered hyperlink style are all skipped silently, leaving
the link exactly as it was. -/
theorem c5_hyperlinks (hstyle : Option (List Char)) (ls : List Hyperlink) :
    processHyperlinks hstyle ls =
      ls.map (fun l =>
        if claimStyled hstyle l = true then setLinkStyle (hstyle.getD []) l
        else l) := by
  cases hstyle with
  | none =>
    show ls = _
    simp [claimStyled]
  | some s =>
    show ls.map (styleHyperlink s) = _
    apply List.map_congr_left
    intro l _
    by_cases hd : isUrlDest l.dest
    · cases hsrc : l.source with
      | text r =>
        by_cases hlen : 0 < r.len
        · simp [styleHyperlink, claimStyled, setLinkStyle, hd, hsrc, hlen]
        · simp [styleHyperlink, claimStyled, setLinkStyle, hd, hsrc, hlen]
      | nonText =>
        simp [styleHyperlink, claimStyled, hd, hsrc]
    · simp [styleHyperlink, claimStyled, hd]

/-- C8: the contextual signal classifies a non-skipped paragraph with
no structural and no lexical evidence as a bullet exactly when its
text begins with a tab AND (its style name matches the list-like
pattern OR the previous non-skipped paragraph was itself classified a
bullet); the rolling flag resets to false at every heading/table
boundary, after every paragraph it equals "this paragraph was
non-skipped and classified a bullet", and the loop's output at each
index is the bulletized paragraph exactly when it was classified. -/
theorem c8_contextual_invariant (st : Styles) (ps : List Para) (k : Nat)
    (hk : k < ps.length) :
    (skipNBL2 (ps.get ⟨k, hk⟩).styleName = true → flagAt ps (k + 1) = false) ∧
    ((ps.get ⟨k, hk⟩).listBullet = false →
      glyphTest (rstrip (ps.get ⟨k, hk⟩).contents) = false →
      skipNBL2 (ps.get ⟨k, hk⟩).styleName = false →
      (classifiedAt ps k = true ↔
        (startsTab (rstrip (ps.get ⟨k, hk⟩).contents) = true ∧
          (listyStyle (ps.get ⟨k, hk⟩).styleName = true ∨ flagAt ps k = true)))) ∧
    flagAt ps (k + 1) =
      (!skipNBL2 (ps.get ⟨k, hk⟩).styleName && classifiedAt ps k) ∧
    (normalizeBulletsLists2 st ps)[k]? =
      some (if classifiedAt ps k = true then bulletize2 st (ps.get ⟨k, hk⟩)
        else ps.get ⟨k, hk⟩) := by
  have hflag := flagAt_succ ps k hk
  have hcls := classifiedAt_eq ps k hk
  simp only [List.get_eq_getElem] at hflag hcls ⊢
  refine ⟨?_, ?_, ?_, ?_⟩
  · intro hs
    rw [hflag]
    unfold stepFlag
    rw [if_pos hs]
  · intro h1 h2 h3
    rw [hcls]
    simp [shouldBullet, h1, h2, h3]
  · rw [hflag, hcls]
    unfold stepFlag
    by_cases hs : skipNBL2 ps[k].styleName
    · rw [if_pos hs]
      simp [hs]
    · rw [if_neg hs]
      simp [hs]
  · unfold normalizeBulletsLists2
    rw [nbl2Go_getElem st ps false k]
    rw [List.getElem?_eq_getElem hk]
    have hfold : (ps.take k).foldl stepFlag false = flagAt ps k := rfl
    simp only [Option.map_some']
    rw [hfold, hcls]

/-- C8 (witness): in the heading / tab-led-listy / tab-led-body story,
the flag is reset by the heading, set by the listy tab paragraph, and
carries the third paragraph to a bullet purely contextually. -/
theorem c8_witness :
    (2 < exPs8.length ∧ flagAt exPs8 2 = true ∧ classifiedAt exPs8 2 = true) ∧
    ((skipNBL2 (exPs8.get ⟨2, by decide⟩).styleName = true →
        flagAt exPs8 3 = false) ∧
      ((exPs8.get ⟨2, by decide⟩).listBullet = false →
        glyphTest (rstrip (exPs8.get ⟨2, by decide⟩).contents) = false →
        skipNBL2 (exPs8.get ⟨2, by decide⟩).styleName = false →
        (classifiedAt exPs8 2 = true ↔
          (startsTab (rstrip (exPs8.get ⟨2, by decide⟩).contents) = true ∧
            (listyStyle (exPs8.get ⟨2, by decide⟩).styleName = true ∨
              flagAt exPs8 2 = true)))) ∧
      flagAt exPs8 3 =
        (!skipNBL2 (exPs8.get ⟨2, by decide⟩).styleName && classifiedAt exPs8 2) ∧
      (normalizeBulletsLists2 exStylesB exPs8)[2]? =
        some (if classifiedAt exPs8 2 = true
          then bulletize2 exStylesB (exPs8.get ⟨2, by decide⟩)
          else exPs8.get ⟨2, by decide⟩)) :=
  ⟨⟨by decide, by decide, by decide⟩,
   c8_contextual_invariant exStylesB exPs8 2 (by decide)⟩
